import Mathlib

/-!
Verification development for the diffmem NTM core (ntm/ntm.py).

The single source file ntm/ntm.py implements class NTM with lossFun and its
inner functions fprop, manual_grads and bprop.  The helper modules it imports
(memory.py, addressing.py, util.py) and the autograd oracle are not part of
src/, so those are modelled from the spec; every such definition is marked
with a doc comment starting "Modelled from the spec:".

Indexing convention: the python code stores per-timestep values in dicts
keyed by t = -1, 0, ..., T-1, where -1 holds the learned initial conditions.
Here the cross-timestep state after python step t-1 is `carryF W inputs t`,
so `carryF W inputs 0` is the python index -1 entry (initial conditions) and
the python values rs[t], w_rs[t], w_ws[t], mems[t] are the fields of
`carryF W inputs (t+1)`.  Quantities computed inside python step t
(zhs[t], hs[t], os[t], head parameters, ps[t], ...) are the fields of
`stepRecF W inputs t`.
-/

open Matrix Finset

/-- Column vector of height n, mirroring a numpy array of shape (n, 1). -/
abbrev Col (n : ℕ) : Type := Matrix (Fin n) (Fin 1) ℝ

/-- Modelled from the spec: the sigmoid nonlinearity primitive (an external
collaborator living in util.py, which is not under src/). -/
noncomputable def sigmoid (x : ℝ) : ℝ := 1 / (1 + Real.exp (-x))

/-- Modelled from the spec: the softplus nonlinearity primitive (external
collaborator in util.py, not under src/). -/
noncomputable def softplus (x : ℝ) : ℝ := Real.log (1 + Real.exp x)

/-- Modelled from the spec: the softmax nonlinearity primitive (external
collaborator in util.py, not under src/), applied to a column vector. -/
noncomputable def softmax {n : ℕ} (v : Col n) : Col n :=
  fun i _ => Real.exp (v i 0) / ∑ j, Real.exp (v j 0)

namespace memory

/-- Modelled from the spec (memory.py is not under src/): read returns the
weighting-weighted sum of memory rows, a column vector of length M. -/
def read {N M : ℕ} (mem : Matrix (Fin N) (Fin M) ℝ) (w : Col N) : Col M :=
  fun i _ => ∑ n, w n 0 * mem n i

/-- Modelled from the spec (memory.py is not under src/): write erases and
adds per location, memory'[n] = memory[n] * (1 - w[n] * erase) + w[n] * add. -/
def write {N M : ℕ} (mem : Matrix (Fin N) (Fin M) ℝ) (w : Col N) (e a : Col M) :
    Matrix (Fin N) (Fin M) ℝ :=
  fun n i => mem n i * (1 - w n 0 * e i 0) + w n 0 * a i 0

end memory

namespace addressing

open Classical in
/-- Modelled from the spec (addressing.py is not under src/): cosine
similarity between a memory row and the key, defined as 0 when either vector
has zero norm so that degenerate rows never produce NaN. -/
noncomputable def cosine_sim {M : ℕ} (u : Fin M → ℝ) (v : Col M) : ℝ :=
  if (∑ j, u j ^ 2) = 0 ∨ (∑ j, v j 0 ^ 2) = 0 then 0
  else (∑ j, u j * v j 0) /
    (Real.sqrt (∑ j, u j ^ 2) * Real.sqrt (∑ j, v j 0 ^ 2))

/-- Modelled from the spec: the source location of the circular-shift
convolution contributing to output location i through shift bucket k; the
neighborhood is i-1, i, i+1 (wrapping at the memory boundary) when the shift
width is 3. -/
def shiftIdx {N : ℕ} (i : Fin N) (k : Fin (min 3 N)) : Fin N :=
  ⟨(i.val + (N - 1) + k.val) % N, Nat.mod_lt _ i.pos⟩

/-- Modelled from the spec (addressing.py is not under src/): content
addressing (cosine similarity scaled by the sharpness, then softmax),
interpolation with the previous weighting by the gate, circular-shift
convolution with the shift distribution, and sharpening (elementwise power
gamma, renormalised by the sum). -/
noncomputable def create_weights {N M : ℕ} (key : Col M) (beta g : ℝ)
    (s : Col (min 3 N)) (gamma : ℝ) (prev : Col N)
    (mem : Matrix (Fin N) (Fin M) ℝ) : Col N :=
  let content : Col N := softmax (fun i _ => beta * cosine_sim (mem i) key)
  let gated : Col N := fun i _ => g * content i 0 + (1 - g) * prev i 0
  let shifted : Col N := fun i _ => ∑ k, s k 0 * gated (shiftIdx i k) 0
  fun i _ => shifted i 0 ^ gamma / ∑ j, shifted j 0 ^ gamma

end addressing

/-- Parameter collection self.W of NTM.__init__: one typed field per key,
with exactly the shapes allocated there (shift width is min 3 N). -/
structure Params (inS outS hS N M : ℕ) where
  xh : Matrix (Fin hS) (Fin inS) ℝ
  ho : Matrix (Fin hS) (Fin hS) ℝ
  oy : Matrix (Fin outS) (Fin hS) ℝ
  bh : Col hS
  by' : Col outS
  bo : Col hS
  rh : Matrix (Fin hS) (Fin M) ℝ
  ok_r : Matrix (Fin M) (Fin hS) ℝ
  ok_w : Matrix (Fin M) (Fin hS) ℝ
  obeta_r : Matrix (Fin 1) (Fin hS) ℝ
  obeta_w : Matrix (Fin 1) (Fin hS) ℝ
  og_r : Matrix (Fin 1) (Fin hS) ℝ
  og_w : Matrix (Fin 1) (Fin hS) ℝ
  os_r : Matrix (Fin (min 3 N)) (Fin hS) ℝ
  os_w : Matrix (Fin (min 3 N)) (Fin hS) ℝ
  ogamma_r : Matrix (Fin 1) (Fin hS) ℝ
  ogamma_w : Matrix (Fin 1) (Fin hS) ℝ
  oadds : Matrix (Fin M) (Fin hS) ℝ
  oerases : Matrix (Fin M) (Fin hS) ℝ
  bk_r : Col M
  bk_w : Col M
  bbeta_r : Col 1
  bbeta_w : Col 1
  bg_r : Col 1
  bg_w : Col 1
  bs_r : Col (min 3 N)
  bs_w : Col (min 3 N)
  bgamma_r : Col 1
  bgamma_w : Col 1
  badds : Col M
  berases : Col M
  rsInit : Col M
  w_wsInit : Col N
  w_rsInit : Col N
  memsInit : Matrix (Fin N) (Fin M) ℝ

namespace NTM

variable {inS outS hS N M : ℕ}

/-- Cross-timestep state of fprop: the dict entries rs[t], w_rs[t], w_ws[t]
and mems[t] carried from one loop iteration to the next. -/
structure Carry (N M : ℕ) where
  rs : Col M
  w_rs : Col N
  w_ws : Col N
  mems : Matrix (Fin N) (Fin M) ℝ

/-- Record of every quantity computed inside one iteration of the fprop
loop (python step t). -/
structure StepRec (inS outS hS N M : ℕ) where
  xs : Col inS
  zhs : Col hS
  hs : Col hS
  zos : Col hS
  os : Col hS
  k_rs : Col M
  beta_rs : ℝ
  g_rs : ℝ
  s_rs : Col (min 3 N)
  gamma_rs : ℝ
  k_ws : Col M
  beta_ws : ℝ
  g_ws : ℝ
  s_ws : Col (min 3 N)
  gamma_ws : ℝ
  adds : Col M
  erases : Col M
  w_ws : Col N
  w_rs : Col N
  ys : Col outS
  ps : Col outS
  rs : Col M
  mems : Matrix (Fin N) (Fin M) ℝ

/-- One iteration of the fprop loop (ntm.py lines 122-189, loss aside),
computing every per-step quantity from the incoming carry (the python
index t-1 values) and the current input.  Scalar head parameters (beta, g,
gamma) are the single entries of the corresponding (1,1) products. -/
noncomputable def stepAll (W : Params inS outS hS N M) (x : Col inS)
    (c : Carry N M) : StepRec inS outS hS N M :=
  let zhs := W.xh * x + W.rh * c.rs + W.bh
  let hs := zhs.map Real.tanh
  let zos := W.ho * hs + W.bo
  let os := zos.map Real.tanh
  let k_rs := (W.ok_r * os + W.bk_r).map Real.tanh
  let beta_rs := softplus ((W.obeta_r * os + W.bbeta_r) 0 0)
  let g_rs := sigmoid ((W.og_r * os + W.bg_r) 0 0)
  let s_rs := softmax (W.os_r * os + W.bs_r)
  let gamma_rs := 1 + sigmoid ((W.ogamma_r * os + W.bgamma_r) 0 0)
  let k_ws := (W.ok_w * os + W.bk_w).map Real.tanh
  let beta_ws := softplus ((W.obeta_w * os + W.bbeta_w) 0 0)
  let g_ws := sigmoid ((W.og_w * os + W.bg_w) 0 0)
  let s_ws := softmax (W.os_w * os + W.bs_w)
  let gamma_ws := 1 + sigmoid ((W.ogamma_w * os + W.bgamma_w) 0 0)
  let adds := (W.oadds * os + W.badds).map Real.tanh
  let erases := (W.oerases * os + W.berases).map sigmoid
  let w_ws := addressing.create_weights k_ws beta_ws g_ws s_ws gamma_ws c.w_ws c.mems
  let w_rs := addressing.create_weights k_rs beta_rs g_rs s_rs gamma_rs c.w_rs c.mems
  let ys := W.oy * os + W.by'
  let ps := ys.map sigmoid
  let rs := memory.read c.mems w_rs
  let mems := memory.write c.mems w_ws erases adds
  ⟨x, zhs, hs, zos, os, k_rs, beta_rs, g_rs, s_rs, gamma_rs,
    k_ws, beta_ws, g_ws, s_ws, gamma_ws, adds, erases, w_ws, w_rs,
    ys, ps, rs, mems⟩

/-- Initial conditions of fprop (python index -1): rs[-1] = rsInit,
w_ws[-1] = softmax w_wsInit, w_rs[-1] = softmax w_rsInit,
mems[-1] = memsInit. -/
noncomputable def carry0 (W : Params inS outS hS N M) : Carry N M :=
  ⟨W.rsInit, softmax W.w_rsInit, softmax W.w_wsInit, W.memsInit⟩

/-- Unrolled cross-timestep state: carryF W inputs t holds the python
index t-1 entries of rs, w_rs, w_ws and mems. -/
noncomputable def carryF (W : Params inS outS hS N M) (inputs : ℕ → Col inS) :
    ℕ → Carry N M
  | 0 => carry0 W
  | t + 1 =>
      let R := stepAll W (inputs t) (carryF W inputs t)
      ⟨R.rs, R.w_rs, R.w_ws, R.mems⟩

/-- Record of the python step t of fprop. -/
noncomputable def stepRecF (W : Params inS outS hS N M) (inputs : ℕ → Col inS)
    (t : ℕ) : StepRec inS outS hS N M :=
  stepAll W (inputs t) (carryF W inputs t)

/-- Epsilon added inside each logarithm of the loss (ntm.py line 180). -/
noncomputable def epsilon : ℝ := 2 ^ (-(23 : ℤ))

/-- Per-step loss vector -(a + b) accumulated by fprop (lines 180-183). -/
noncomputable def lossTerm (W : Params inS outS hS N M) (inputs : ℕ → Col inS)
    (targets : ℕ → Col outS) (t : ℕ) : Col outS :=
  fun i _ =>
    -(targets t i 0 * Real.log ((stepRecF W inputs t).ps i 0 + epsilon) +
      (1 - targets t i 0) * Real.log (1 - (stepRecF W inputs t).ps i 0 + epsilon))

/-- Scalar returned by fprop: np.sum of the accumulated loss vector, the sum
over all timesteps and output bits. -/
noncomputable def fpropLoss (W : Params inS outS hS N M) (inputs : ℕ → Col inS)
    (targets : ℕ → Col outS) (T : ℕ) : ℝ :=
  ∑ t ∈ Finset.range T, ∑ i, lossTerm W inputs targets t i 0

end NTM

/-- Matrix of ones, as produced by np.ones. -/
def ones (a b : ℕ) : Matrix (Fin a) (Fin b) ℝ := fun _ _ => 1

/-- All-zero parameter collection: the fresh gradient collection allocated by
manual_grads via np.zeros_like, one zero tensor per key of self.W. -/
def zeroParams (inS outS hS N M : ℕ) : Params inS outS hS N M :=
  ⟨0, 0, 0, 0, 0, 0, 0, 0, 0, 0, 0, 0, 0, 0, 0, 0, 0, 0, 0, 0, 0, 0, 0, 0,
    0, 0, 0, 0, 0, 0, 0, 0, 0, 0, 0⟩

namespace NTM

variable {inS outS hS N M : ℕ}

/-- State threaded through the reversed loop of manual_grads: the gradient
collection together with the entries dzh[t], drs[t], dmemtilde[t] and dmem[t]
stored by the iteration that processed step t (and read by the iteration
processing step t-1). -/
structure BState (inS outS hS N M : ℕ) where
  deltas : Params inS outS hS N M
  dzh : Col hS
  drs : Col M
  dmemtilde : Matrix (Fin N) (Fin M) ℝ
  dmem : Matrix (Fin N) (Fin M) ℝ

/-- Tail shared by both branches of the manual_grads loop body (ntm.py lines
258-281): backprop through the interface layer and the hidden layer, and
accumulation into ho, bo, xh, bh and rh. -/
noncomputable def bstepTail (W : Params inS outS hS N M)
    (R : StepRec inS outS hS N M) (c : Carry N M) (dy : Col outS)
    (do' : Col hS) (d : Params inS outS hS N M) (drs_t : Col M)
    (dmemtilde_t dmem_t : Matrix (Fin N) (Fin M) ℝ) : BState inS outS hS N M :=
  let dzo := Matrix.hadamard do' (ones hS 1 - Matrix.hadamard R.os R.os)
  let d3 := { d with ho := d.ho + dzo * R.hsᵀ, bo := d.bo + dzo }
  let dh := W.hoᵀ * dzo
  let dzh_t := Matrix.hadamard dh (ones hS 1 - Matrix.hadamard R.hs R.hs)
  let d4 := { d3 with
    xh := d3.xh + dzh_t * R.xsᵀ
    bh := d3.bh + dzh_t
    rh := d3.rh + dzh_t * c.rsᵀ }
  ⟨d4, dzh_t, drs_t, dmemtilde_t, dmem_t⟩

/-- One iteration of the reversed loop of manual_grads (ntm.py lines
209-281), processing python step t; s carries the values stored by the
iteration that processed step t+1.  The branch condition t < T-1 of the
source is written t + 1 < T. -/
noncomputable def bstep (W : Params inS outS hS N M) (inputs : ℕ → Col inS)
    (targets : ℕ → Col outS) (T t : ℕ) (s : BState inS outS hS N M) :
    BState inS outS hS N M :=
  let R := stepRecF W inputs t
  let c := carryF W inputs t
  let dy := R.ps - targets t
  let d1 := { s.deltas with
    oy := s.deltas.oy + dy * R.osᵀ
    by' := s.deltas.by' + dy }
  if t + 1 < T then
    let drs_t := W.rhᵀ * s.dzh
    let R' := stepRecF W inputs (t + 1)
    let KEEP := ones N M - R'.w_ws * R'.erasesᵀ
    let dmem_t := R'.w_rs * s.drsᵀ + Matrix.hadamard s.dmemtilde KEEP
    let dmemtilde_t := dmem_t
    let derase := (Matrix.hadamard dmemtilde_t (-c.mems))ᵀ * R.w_ws
    let dzerase := Matrix.hadamard derase
      (Matrix.hadamard R.erases (ones M 1 - R.erases))
    let dadd := dmem_tᵀ * R.w_ws
    let dzadd := Matrix.hadamard dadd (ones M 1 - Matrix.hadamard R.adds R.adds)
    let d2 := { d1 with
      badds := d1.badds + dzadd
      oadds := d1.oadds + dzadd * R.osᵀ
      berases := d1.berases + dzerase
      oerases := d1.oerases + dzerase * R.osᵀ }
    let do' := W.oyᵀ * dy + W.oaddsᵀ * dzadd + W.oerasesᵀ * dzerase
    bstepTail W R c dy do' d2 drs_t dmemtilde_t dmem_t
  else
    let do' := W.oyᵀ * dy
    bstepTail W R c dy do' d1 0 0 s.dmem

/-- Backward run: bstateF W inputs targets T init j is the state after the
reversed loop of manual_grads has processed the j highest steps, i.e. steps
T-1 down to T-j; init is the state before any iteration. -/
noncomputable def bstateF (W : Params inS outS hS N M) (inputs : ℕ → Col inS)
    (targets : ℕ → Col outS) (T : ℕ) (init : BState inS outS hS N M) :
    ℕ → BState inS outS hS N M
  | 0 => init
  | j + 1 => bstep W inputs targets T (T - 1 - j) (bstateF W inputs targets T init j)

/-- Initial backward state: the gradient collection starts as zeros_like of
every parameter (ntm.py lines 199-201); the recurrence slots start empty
(zero). -/
def zeroBState (inS outS hS N M : ℕ) : BState inS outS hS N M :=
  ⟨zeroParams inS outS hS N M, 0, 0, 0, 0⟩

/-- Gradient collection returned by manual_grads: the deltas after all T
iterations of the reversed loop. -/
noncomputable def manualGradsF (W : Params inS outS hS N M)
    (inputs : ℕ → Col inS) (targets : ℕ → Col outS) (T : ℕ) :
    Params inS outS hS N M :=
  (bstateF W inputs targets T (zeroBState inS outS hS N M) T).deltas

/-- Accumulated loss vector of fprop (the stats[0] entry), before np.sum. -/
noncomputable def lossVecF (W : Params inS outS hS N M) (inputs : ℕ → Col inS)
    (targets : ℕ → Col outS) (T : ℕ) : Col outS :=
  ∑ t ∈ Finset.range T, lossTerm W inputs targets t

end NTM

/-- Names of the parameter tensors: the keys of the dict self.W. -/
inductive PKey where
  | xh | ho | oy | bh | by' | bo | rh
  | ok_r | ok_w | obeta_r | obeta_w | og_r | og_w | os_r | os_w
  | ogamma_r | ogamma_w | oadds | oerases
  | bk_r | bk_w | bbeta_r | bbeta_w | bg_r | bg_w | bs_r | bs_w
  | bgamma_r | bgamma_w | badds | berases
  | rsInit | w_wsInit | w_rsInit | memsInit
  deriving DecidableEq

/-- Row count of the tensor stored under each key. -/
def rowsOf (inS outS hS N M : ℕ) : PKey → ℕ
  | .xh => hS | .ho => hS | .oy => outS | .bh => hS | .by' => outS | .bo => hS
  | .rh => hS
  | .ok_r => M | .ok_w => M | .obeta_r => 1 | .obeta_w => 1
  | .og_r => 1 | .og_w => 1 | .os_r => min 3 N | .os_w => min 3 N
  | .ogamma_r => 1 | .ogamma_w => 1 | .oadds => M | .oerases => M
  | .bk_r => M | .bk_w => M | .bbeta_r => 1 | .bbeta_w => 1
  | .bg_r => 1 | .bg_w => 1 | .bs_r => min 3 N | .bs_w => min 3 N
  | .bgamma_r => 1 | .bgamma_w => 1 | .badds => M | .berases => M
  | .rsInit => M | .w_wsInit => N | .w_rsInit => N | .memsInit => N

/-- Column count of the tensor stored under each key. -/
def colsOf (inS outS hS N M : ℕ) : PKey → ℕ
  | .xh => inS | .ho => hS | .oy => hS | .bh => 1 | .by' => 1 | .bo => 1
  | .rh => M
  | .ok_r => hS | .ok_w => hS | .obeta_r => hS | .obeta_w => hS
  | .og_r => hS | .og_w => hS | .os_r => hS | .os_w => hS
  | .ogamma_r => hS | .ogamma_w => hS | .oadds => hS | .oerases => hS
  | .bk_r => 1 | .bk_w => 1 | .bbeta_r => 1 | .bbeta_w => 1
  | .bg_r => 1 | .bg_w => 1 | .bs_r => 1 | .bs_w => 1
  | .bgamma_r => 1 | .bgamma_w => 1 | .badds => 1 | .berases => 1
  | .rsInit => 1 | .w_wsInit => 1 | .w_rsInit => 1 | .memsInit => M

/-- Lookup of the tensor stored under a key, mirroring self.W[k]. -/
def Params.get {inS outS hS N M : ℕ} (W : Params inS outS hS N M) :
    (k : PKey) → Matrix (Fin (rowsOf inS outS hS N M k)) (Fin (colsOf inS outS hS N M k)) ℝ
  | .xh => W.xh | .ho => W.ho | .oy => W.oy | .bh => W.bh | .by' => W.by'
  | .bo => W.bo | .rh => W.rh
  | .ok_r => W.ok_r | .ok_w => W.ok_w | .obeta_r => W.obeta_r
  | .obeta_w => W.obeta_w | .og_r => W.og_r | .og_w => W.og_w
  | .os_r => W.os_r | .os_w => W.os_w | .ogamma_r => W.ogamma_r
  | .ogamma_w => W.ogamma_w | .oadds => W.oadds | .oerases => W.oerases
  | .bk_r => W.bk_r | .bk_w => W.bk_w | .bbeta_r => W.bbeta_r
  | .bbeta_w => W.bbeta_w | .bg_r => W.bg_r | .bg_w => W.bg_w
  | .bs_r => W.bs_r | .bs_w => W.bs_w | .bgamma_r => W.bgamma_r
  | .bgamma_w => W.bgamma_w | .badds => W.badds | .berases => W.berases
  | .rsInit => W.rsInit | .w_wsInit => W.w_wsInit | .w_rsInit => W.w_rsInit
  | .memsInit => W.memsInit

/-- List of all parameter keys. -/
def allKeys : List PKey :=
  [.xh, .ho, .oy, .bh, .by', .bo, .rh,
   .ok_r, .ok_w, .obeta_r, .obeta_w, .og_r, .og_w, .os_r, .os_w,
   .ogamma_r, .ogamma_w, .oadds, .oerases,
   .bk_r, .bk_w, .bbeta_r, .bbeta_w, .bg_r, .bg_w, .bs_r, .bs_w,
   .bgamma_r, .bgamma_w, .badds, .berases,
   .rsInit, .w_wsInit, .w_rsInit, .memsInit]

theorem mem_allKeys (k : PKey) : k ∈ allKeys := by cases k <;> decide

namespace NTM

variable {inS outS hS N M : ℕ}

/-- Modelled from the spec: shape of the black-box tolerance comparison
compare_deltas of util.py (not under src/), one Bool per pair of
equally-shaped tensors; true means the tensors agree within tolerance. -/
def CmpFn : Type :=
  (n m : ℕ) → Matrix (Fin n) (Fin m) ℝ → Matrix (Fin n) (Fin m) ℝ → Bool

/-- Diagnostic record printed by bprop for one mismatching key: the
parameter name, the baseline (oracle) tensor and the candidate (manual)
tensor. -/
structure FailEntry (inS outS hS N M : ℕ) where
  key : PKey
  baseline : Matrix (Fin (rowsOf inS outS hS N M key)) (Fin (colsOf inS outS hS N M key)) ℝ
  candidate : Matrix (Fin (rowsOf inS outS hS N M key)) (Fin (colsOf inS outS hS N M key)) ℝ

/-- Keys collected into failed_keys by the verification loop of bprop
(ntm.py lines 296-308): those where compare_deltas returns false on the
oracle (baseline) and manual (candidate) gradients. -/
noncomputable def failKeysD (oracle : Params inS outS hS N M → Params inS outS hS N M)
    (cmp : CmpFn) (W : Params inS outS hS N M) (inputs : ℕ → Col inS)
    (targets : ℕ → Col outS) (T : ℕ) : List PKey :=
  allKeys.filter fun k =>
    ! cmp _ _ ((oracle W).get k) ((manualGradsF W inputs targets T).get k)

/-- Diagnostic dump produced on failure: every offending key with its
baseline and candidate tensors. -/
noncomputable def failListD (oracle : Params inS outS hS N M → Params inS outS hS N M)
    (cmp : CmpFn) (W : Params inS outS hS N M) (inputs : ℕ → Col inS)
    (targets : ℕ → Col outS) (T : ℕ) : List (FailEntry inS outS hS N M) :=
  (failKeysD oracle cmp W inputs targets T).map fun k =>
    ⟨k, (oracle W).get k, (manualGradsF W inputs targets T).get k⟩

/-- Embedding of bprop (ntm.py lines 285-321).  The oracle argument is
modelled from the spec: the automatic-differentiation black box grad(fprop),
a function from the parameter collection to a gradient collection.  With
manual_grad the manual gradients are computed and verified key by key
against the oracle output; any mismatch aborts the process (sys.exit(1),
modelled as Except.error carrying the diagnostic dump), otherwise the manual
deltas are returned.  Without manual_grad the oracle gradients are returned
directly. -/
noncomputable def bpropE (oracle : Params inS outS hS N M → Params inS outS hS N M)
    (cmp : CmpFn) (W : Params inS outS hS N M) (inputs : ℕ → Col inS)
    (targets : ℕ → Col outS) (T : ℕ) (manual_grad : Bool) :
    Except (List (FailEntry inS outS hS N M)) (Params inS outS hS N M) :=
  if manual_grad then
    if (failKeysD oracle cmp W inputs targets T).isEmpty then
      Except.ok (manualGradsF W inputs targets T)
    else
      Except.error (failListD oracle cmp W inputs targets T)
  else
    Except.ok (oracle W)

/-- Tuple returned by lossFun (ntm.py line 326): loss, deltas, ps, w_rs,
w_ws, adds, erases.  The time-indexed dicts become functions of the python
step index; w_rs and w_ws are indexed like carryF, so (w_rs 0) is the
python index -1 entry. -/
structure LossOut (inS outS hS N M : ℕ) where
  loss : Col outS
  deltas : Params inS outS hS N M
  ps : ℕ → Col outS
  w_rs : ℕ → Col N
  w_ws : ℕ → Col N
  adds : ℕ → Col M
  erases : ℕ → Col M

/-- Embedding of lossFun (ntm.py lines 88-326): runs bprop and packages the
returned tuple; on the verifier's failure path the process aborts instead
(Except.error). -/
noncomputable def lossFunE (oracle : Params inS outS hS N M → Params inS outS hS N M)
    (cmp : CmpFn) (W : Params inS outS hS N M) (inputs : ℕ → Col inS)
    (targets : ℕ → Col outS) (T : ℕ) (manual_grad : Bool) :
    Except (List (FailEntry inS outS hS N M)) (LossOut inS outS hS N M) :=
  match bpropE oracle cmp W inputs targets T manual_grad with
  | Except.error e => Except.error e
  | Except.ok d =>
      Except.ok
        ⟨lossVecF W inputs targets T, d,
         fun t => (stepRecF W inputs t).ps,
         fun t => (carryF W inputs t).w_rs,
         fun t => (carryF W inputs t).w_ws,
         fun t => (stepRecF W inputs t).adds,
         fun t => (stepRecF W inputs t).erases⟩

/-- Activation trace stored on self.stats by fprop (ntm.py line 191).
Time-indexed dicts become functions of the step index; mems, rs, w_rs and
w_ws are indexed like carryF (entry 0 is the python index -1 entry), the
others are indexed by the python step. -/
structure Stats (inS outS hS N M : ℕ) where
  loss : Col outS
  mems : ℕ → Matrix (Fin N) (Fin M) ℝ
  ps : ℕ → Col outS
  ys : ℕ → Col outS
  os : ℕ → Col hS
  zos : ℕ → Col hS
  hs : ℕ → Col hS
  zhs : ℕ → Col hS
  xs : ℕ → Col inS
  rs : ℕ → Col M
  w_rs : ℕ → Col N
  w_ws : ℕ → Col N
  adds : ℕ → Col M
  erases : ℕ → Col M

/-- Trace written to self.stats by a forward pass over the given inputs and
targets. -/
noncomputable def statsOf (W : Params inS outS hS N M) (inputs : ℕ → Col inS)
    (targets : ℕ → Col outS) (T : ℕ) : Stats inS outS hS N M :=
  ⟨lossVecF W inputs targets T,
   fun t => (carryF W inputs t).mems,
   fun t => (stepRecF W inputs t).ps,
   fun t => (stepRecF W inputs t).ys,
   fun t => (stepRecF W inputs t).os,
   fun t => (stepRecF W inputs t).zos,
   fun t => (stepRecF W inputs t).hs,
   fun t => (stepRecF W inputs t).zhs,
   fun t => (stepRecF W inputs t).xs,
   fun t => (carryF W inputs t).rs,
   fun t => (carryF W inputs t).w_rs,
   fun t => (carryF W inputs t).w_ws,
   fun t => (stepRecF W inputs t).adds,
   fun t => (stepRecF W inputs t).erases⟩

/-- Mutable state of an NTM object: the parameter collection self.W and the
trace slot self.stats. -/
structure NTMState (inS outS hS N M : ℕ) where
  W : Params inS outS hS N M
  stats : Option (Stats inS outS hS N M)

/-- State-level embedding of a lossFun call: the returned tuple (or abort)
together with the object state after the call; the call fills self.stats
with the fresh trace and leaves self.W as it found it. -/
noncomputable def lossFunState (s : NTMState inS outS hS N M)
    (oracle : Params inS outS hS N M → Params inS outS hS N M) (cmp : CmpFn)
    (inputs : ℕ → Col inS) (targets : ℕ → Col outS) (T : ℕ)
    (manual_grad : Bool) :
    Except (List (FailEntry inS outS hS N M)) (LossOut inS outS hS N M) ×
      NTMState inS outS hS N M :=
  (lossFunE oracle cmp s.W inputs targets T manual_grad,
   ⟨s.W, some (statsOf s.W inputs targets T)⟩)

end NTM

theorem sigmoid_pos (x : ℝ) : 0 < sigmoid x := by
  unfold sigmoid
  positivity

theorem sigmoid_lt_one (x : ℝ) : sigmoid x < 1 := by
  unfold sigmoid
  rw [div_lt_one (by positivity)]
  linarith [Real.exp_pos (-x)]

theorem epsilon_pos : 0 < NTM.epsilon := by
  unfold NTM.epsilon
  positivity

namespace NTM

variable {inS outS hS N M : ℕ}

/-- C4: at every python timestep t of fprop, the write-head weighting and
the read-head weighting are both computed by addressing.create_weights
against the previous-step memory mems[t-1]; the read vector rs[t] is read
from mems[t-1] (not from the just-written mems[t]); the new memory mems[t]
is produced by memory.write from mems[t-1]; and the read vector is consumed
by the hidden layer only at the next step: zhs[t+1] is built from rs[t]. -/
theorem C4_read_write_dataflow (W : Params inS outS hS N M)
    (inputs : ℕ → Col inS) (t : ℕ) :
    (stepRecF W inputs t).w_ws =
      addressing.create_weights (stepRecF W inputs t).k_ws
        (stepRecF W inputs t).beta_ws (stepRecF W inputs t).g_ws
        (stepRecF W inputs t).s_ws (stepRecF W inputs t).gamma_ws
        (carryF W inputs t).w_ws (carryF W inputs t).mems ∧
    (stepRecF W inputs t).w_rs =
      addressing.create_weights (stepRecF W inputs t).k_rs
        (stepRecF W inputs t).beta_rs (stepRecF W inputs t).g_rs
        (stepRecF W inputs t).s_rs (stepRecF W inputs t).gamma_rs
        (carryF W inputs t).w_rs (carryF W inputs t).mems ∧
    (carryF W inputs (t + 1)).rs =
      memory.read (carryF W inputs t).mems (stepRecF W inputs t).w_rs ∧
    (carryF W inputs (t + 1)).mems =
      memory.write (carryF W inputs t).mems (stepRecF W inputs t).w_ws
        (stepRecF W inputs t).erases (stepRecF W inputs t).adds ∧
    (stepRecF W inputs (t + 1)).zhs =
      W.xh * inputs (t + 1) + W.rh * (carryF W inputs (t + 1)).rs + W.bh :=
  ⟨rfl, rfl, rfl, rfl, rfl⟩

/-- C6: the scalar returned by fprop is the sum over all timesteps and all
output bits of the binary cross-entropy term
-(target * log (p + eps) + (1 - target) * log (1 - p + eps)) with
p = sigmoid of the output logits ys; eps = 2^-23, and both arguments of the
logarithms are strictly positive, so log 0 is never evaluated. -/
theorem C6_loss_is_bce (W : Params inS outS hS N M) (inputs : ℕ → Col inS)
    (targets : ℕ → Col outS) (T : ℕ) :
    fpropLoss W inputs targets T =
      ∑ t ∈ Finset.range T, ∑ i,
        -(targets t i 0 *
            Real.log (sigmoid ((stepRecF W inputs t).ys i 0) + epsilon) +
          (1 - targets t i 0) *
            Real.log (1 - sigmoid ((stepRecF W inputs t).ys i 0) + epsilon)) ∧
    epsilon = 2 ^ (-(23 : ℤ)) ∧
    (∀ (t : ℕ) (i : Fin outS),
      0 < sigmoid ((stepRecF W inputs t).ys i 0) + epsilon ∧
      0 < 1 - sigmoid ((stepRecF W inputs t).ys i 0) + epsilon) :=
  ⟨rfl, rfl, fun t i =>
    ⟨by linarith [sigmoid_pos ((stepRecF W inputs t).ys i 0), epsilon_pos],
     by linarith [sigmoid_lt_one ((stepRecF W inputs t).ys i 0), epsilon_pos]⟩⟩

/-- C7: the iteration of manual_grads that processes the terminal timestep
t = T-1 stores the all-zero read-vector gradient and all-zero future memory
gradient (the backward boundary condition); and for a length-1 sequence the
result is independent of whatever the recurrence slots held before the loop,
so those terms contribute nothing to any parameter gradient. -/
theorem C7_terminal_boundary :
    (∀ (W : Params inS outS hS N M) (inputs : ℕ → Col inS)
        (targets : ℕ → Col outS) (T : ℕ) (init : BState inS outS hS N M),
      (bstateF W inputs targets T init 1).drs = 0 ∧
      (bstateF W inputs targets T init 1).dmemtilde = 0) ∧
    (∀ (W : Params inS outS hS N M) (inputs : ℕ → Col inS)
        (targets : ℕ → Col outS) (d : Params inS outS hS N M)
        (v1 : Col hS) (v2 : Col M) (v3 v4 : Matrix (Fin N) (Fin M) ℝ),
      (bstateF W inputs targets 1 ⟨d, v1, v2, v3, v4⟩ 1).deltas =
        (bstateF W inputs targets 1 ⟨d, 0, 0, 0, 0⟩ 1).deltas) := by
  constructor
  · intro W inputs targets T init
    have h : ¬ (T - 1 - 0 + 1 < T) := by omega
    simp only [bstateF, bstep, if_neg h]
    exact ⟨rfl, rfl⟩
  · intro W inputs targets d v1 v2 v3 v4
    have h : ¬ ((1 : ℕ) - 1 - 0 + 1 < 1) := by omega
    simp only [bstateF, bstep, if_neg h]
    rfl

/-- C9: a lossFun call leaves the parameter collection self.W exactly as it
found it (only self.stats is filled); the manual gradient collection is
accumulated starting from a fresh all-zero collection that shares the keys
and shapes of the parameter collection. -/
theorem C9_params_not_mutated (s : NTMState inS outS hS N M)
    (oracle : Params inS outS hS N M → Params inS outS hS N M) (cmp : CmpFn)
    (inputs : ℕ → Col inS) (targets : ℕ → Col outS) (T : ℕ)
    (manual_grad : Bool) :
    ((lossFunState s oracle cmp inputs targets T manual_grad).2).W = s.W ∧
    (bstateF s.W inputs targets T (zeroBState inS outS hS N M) 0).deltas =
      zeroParams inS outS hS N M ∧
    (∀ k : PKey, (zeroParams inS outS hS N M).get k = 0) :=
  ⟨rfl, rfl, fun k => by cases k <;> rfl⟩

/-- C10: the erase/add parameter gradients oadds, badds, oerases, berases
are accumulated only inside the t < T-1 branch of manual_grads; the
iteration processing the terminal timestep leaves all four unchanged, and
for a length-1 sequence all four manual gradients are exactly zero. -/
theorem C10_erase_add_skipped_at_terminal :
    (∀ (W : Params inS outS hS N M) (inputs : ℕ → Col inS)
        (targets : ℕ → Col outS) (T t : ℕ) (s : BState inS outS hS N M),
      ¬ (t + 1 < T) →
        (bstep W inputs targets T t s).deltas.oadds = s.deltas.oadds ∧
        (bstep W inputs targets T t s).deltas.badds = s.deltas.badds ∧
        (bstep W inputs targets T t s).deltas.oerases = s.deltas.oerases ∧
        (bstep W inputs targets T t s).deltas.berases = s.deltas.berases) ∧
    (∀ (W : Params inS outS hS N M) (inputs : ℕ → Col inS)
        (targets : ℕ → Col outS),
      (manualGradsF W inputs targets 1).oadds = 0 ∧
      (manualGradsF W inputs targets 1).badds = 0 ∧
      (manualGradsF W inputs targets 1).oerases = 0 ∧
      (manualGradsF W inputs targets 1).berases = 0) := by
  constructor
  · intro W inputs targets T t s h
    simp only [bstep, if_neg h]
    exact ⟨rfl, rfl, rfl, rfl⟩
  · intro W inputs targets
    have h : ¬ ((1 : ℕ) - 1 - 0 + 1 < 1) := by omega
    simp only [manualGradsF, bstateF, bstep, if_neg h]
    exact ⟨rfl, rfl, rfl, rfl⟩

/-- Closed instance of the C10 hypothesis at a concrete input. -/
theorem C10_erase_add_skipped_at_terminal_w :
    ¬ ((0 : ℕ) + 1 < 1) ∧
    (bstep (zeroParams 1 1 1 1 1) (fun _ => 0) (fun _ => 0) 1 0
        (zeroBState 1 1 1 1 1)).deltas.oadds =
      (zeroBState 1 1 1 1 1).deltas.oadds :=
  ⟨by decide,
   ((C10_erase_add_skipped_at_terminal.1 (zeroParams 1 1 1 1 1) (fun _ => 0)
      (fun _ => 0) 1 0 (zeroBState 1 1 1 1 1)) (by decide)).1⟩

end NTM

namespace NTM

variable {inS outS hS N M : ℕ}

/-- C8: for a non-terminal timestep t < T-1, the memory gradient dmem[t]
computed by manual_grads equals the rank-one outer product of the next
step's read-weighting w_rs[t+1] with the next step's read-vector gradient
drs[t+1], plus the elementwise product of the next step's memory gradient
dmemtilde[t+1] with the keep mask ones - w_ws[t+1] * erases[t+1]^T
(ntm.py lines 217-230).  In the backward run, the values stored for step u
live in bstateF ... (T - u). -/
theorem C8_dmem_recurrence (W : Params inS outS hS N M)
    (inputs : ℕ → Col inS) (targets : ℕ → Col outS) (T t : ℕ)
    (h : t + 1 < T) :
    (bstateF W inputs targets T (zeroBState inS outS hS N M) (T - t)).dmem =
      (stepRecF W inputs (t + 1)).w_rs *
        ((bstateF W inputs targets T (zeroBState inS outS hS N M) (T - t - 1)).drs)ᵀ +
      Matrix.hadamard
        (bstateF W inputs targets T (zeroBState inS outS hS N M) (T - t - 1)).dmemtilde
        (ones N M - (stepRecF W inputs (t + 1)).w_ws *
          ((stepRecF W inputs (t + 1)).erases)ᵀ) := by
  have hTt : T - t = (T - t - 1) + 1 := by omega
  rw [hTt]
  show (bstep W inputs targets T (T - 1 - (T - t - 1))
      (bstateF W inputs targets T (zeroBState inS outS hS N M) (T - t - 1))).dmem = _
  have ht : T - 1 - (T - t - 1) = t := by omega
  rw [ht]
  simp only [bstep, if_pos h]
  rfl

/-- Closed instance of the C8 hypothesis at a concrete input. -/
theorem C8_dmem_recurrence_w :
    (0 : ℕ) + 1 < 2 ∧
    (bstateF (zeroParams 1 1 1 1 1) (fun _ => 0) (fun _ => 0) 2
        (zeroBState 1 1 1 1 1) (2 - 0)).dmem =
      (stepRecF (zeroParams 1 1 1 1 1) (fun _ => 0) (0 + 1)).w_rs *
        ((bstateF (zeroParams 1 1 1 1 1) (fun _ => 0) (fun _ => 0) 2
          (zeroBState 1 1 1 1 1) (2 - 0 - 1)).drs)ᵀ +
      Matrix.hadamard
        (bstateF (zeroParams 1 1 1 1 1) (fun _ => 0) (fun _ => 0) 2
          (zeroBState 1 1 1 1 1) (2 - 0 - 1)).dmemtilde
        (ones 1 1 - (stepRecF (zeroParams 1 1 1 1 1) (fun _ => 0) (0 + 1)).w_ws *
          ((stepRecF (zeroParams 1 1 1 1 1) (fun _ => 0) (0 + 1)).erases)ᵀ) :=
  ⟨by decide,
   C8_dmem_recurrence (zeroParams 1 1 1 1 1) (fun _ => 0) (fun _ => 0) 2 0
     (by decide)⟩

/-- C3: with manual_grad = true, bprop compares the oracle (baseline) and
manual (candidate) gradients key by key with compare_deltas; it aborts the
process (modelled as Except.error) carrying a diagnostic record per
offending key, holding that key's name, baseline tensor and candidate
tensor, exactly when at least one key mismatches, and the offending keys
are exactly those where compare_deltas fails; when no key mismatches it
returns the manual gradient collection. -/
theorem C3_verifier_fail_fast
    (oracle : Params inS outS hS N M → Params inS outS hS N M) (cmp : CmpFn)
    (W : Params inS outS hS N M) (inputs : ℕ → Col inS)
    (targets : ℕ → Col outS) (T : ℕ) :
    (bpropE oracle cmp W inputs targets T true =
        Except.ok (manualGradsF W inputs targets T) ↔
      failKeysD oracle cmp W inputs targets T = []) ∧
    (bpropE oracle cmp W inputs targets T true =
        Except.error (failListD oracle cmp W inputs targets T) ↔
      failKeysD oracle cmp W inputs targets T ≠ []) ∧
    (∀ k : PKey, k ∈ failKeysD oracle cmp W inputs targets T ↔
      cmp _ _ ((oracle W).get k) ((manualGradsF W inputs targets T).get k)
        = false) ∧
    failListD oracle cmp W inputs targets T =
      (failKeysD oracle cmp W inputs targets T).map fun k =>
        ⟨k, (oracle W).get k, (manualGradsF W inputs targets T).get k⟩ := by
  refine ⟨?_, ?_, ?_, rfl⟩
  · unfold bpropE
    rcases hE : (failKeysD oracle cmp W inputs targets T).isEmpty with hf | ht
    · rw [List.isEmpty_eq_false] at hE
      simp [hE]
    · rw [List.isEmpty_iff] at hE
      simp [hE]
  · unfold bpropE
    rcases hE : (failKeysD oracle cmp W inputs targets T).isEmpty with hf | ht
    · rw [List.isEmpty_eq_false] at hE
      simp [hE]
    · rw [List.isEmpty_iff] at hE
      simp [hE]
  · intro k
    unfold failKeysD
    rw [List.mem_filter]
    simp [mem_allKeys]

end NTM

theorem softmax_pos {n : ℕ} (v : Col n) (i : Fin n) : 0 < softmax v i 0 := by
  unfold softmax
  have hsum : 0 < ∑ j, Real.exp (v j 0) :=
    Finset.sum_pos (fun j _ => Real.exp_pos _) ⟨i, Finset.mem_univ i⟩
  exact div_pos (Real.exp_pos _) hsum

theorem softmax_sum {n : ℕ} (hn : 0 < n) (v : Col n) :
    ∑ i, softmax v i 0 = 1 := by
  unfold softmax
  rw [← Finset.sum_div]
  have hsum : 0 < ∑ j, Real.exp (v j 0) :=
    Finset.sum_pos (fun j _ => Real.exp_pos _)
      (Finset.univ_nonempty_iff.mpr ⟨⟨0, hn⟩⟩)
  exact div_self (ne_of_gt hsum)

namespace addressing

theorem shiftIdx_injective {N : ℕ} (k : Fin (min 3 N)) :
    Function.Injective fun i : Fin N => shiftIdx i k := by
  intro a b hab
  have hv : (a.val + (N - 1) + k.val) % N = (b.val + (N - 1) + k.val) % N :=
    congrArg Fin.val hab
  have hmod : a.val ≡ b.val [MOD N] := by
    have h1 : a.val + (N - 1 + k.val) ≡ b.val + (N - 1 + k.val) [MOD N] := by
      unfold Nat.ModEq
      rw [← add_assoc, ← add_assoc]
      exact hv
    exact Nat.ModEq.add_right_cancel' _ h1
  have ha : a.val % N = a.val := Nat.mod_eq_of_lt a.isLt
  have hb : b.val % N = b.val := Nat.mod_eq_of_lt b.isLt
  exact Fin.ext (by rw [← ha, ← hb]; exact hmod)

/-- Simplex preservation of the addressing engine: for any key, sharpness and
memory, a gate in (0, 1], a shift distribution on the simplex and a previous
weighting on the simplex, the output weighting is strictly positive and sums
to 1. -/
theorem create_weights_simplex {N M : ℕ} (hN : 0 < N) (key : Col M)
    (beta g : ℝ) (s : Col (min 3 N)) (gamma : ℝ) (prev : Col N)
    (mem : Matrix (Fin N) (Fin M) ℝ) (hg0 : 0 < g) (hg1 : g ≤ 1)
    (hs0 : ∀ k, 0 ≤ s k 0) (hs1 : ∑ k, s k 0 = 1)
    (hprev0 : ∀ i, 0 ≤ prev i 0) (hprev1 : ∑ i, prev i 0 = 1) :
    (∀ i, 0 < create_weights key beta g s gamma prev mem i 0) ∧
    ∑ i, create_weights key beta g s gamma prev mem i 0 = 1 := by
  unfold create_weights
  set content : Col N := softmax (fun i _ => beta * cosine_sim (mem i) key)
    with hcontent
  set gated : Col N := fun i _ => g * content i 0 + (1 - g) * prev i 0
    with hgated
  set shifted : Col N := fun i _ => ∑ k, s k 0 * gated (shiftIdx i k) 0
    with hshifted
  have hgated_pos : ∀ i, 0 < gated i 0 := by
    intro i
    have h1 : 0 < g * content i 0 := mul_pos hg0 (softmax_pos _ i)
    have h2 : 0 ≤ (1 - g) * prev i 0 :=
      mul_nonneg (by linarith) (hprev0 i)
    simp only [hgated]
    linarith
  have hgated_sum : ∑ i, gated i 0 = 1 := by
    simp only [hgated]
    rw [Finset.sum_add_distrib, ← Finset.mul_sum, ← Finset.mul_sum,
      softmax_sum hN, hprev1]
    ring
  have hshifted_pos : ∀ i, 0 < shifted i 0 := by
    intro i
    have hex : ∃ k : Fin (min 3 N), 0 < s k 0 := by
      by_contra h
      push_neg at h
      have : ∑ k, s k 0 ≤ 0 := Finset.sum_nonpos fun k _ => h k
      linarith
    obtain ⟨k, hk⟩ := hex
    refine Finset.sum_pos' (fun j _ => mul_nonneg (hs0 j) (hgated_pos _).le)
      ⟨k, Finset.mem_univ k, mul_pos hk (hgated_pos _)⟩
  have hshifted_sum : ∑ i, shifted i 0 = 1 := by
    simp only [hshifted]
    rw [Finset.sum_comm]
    have hre : ∀ k : Fin (min 3 N),
        ∑ i, s k 0 * gated (shiftIdx i k) 0 = s k 0 := by
      intro k
      rw [← Finset.mul_sum]
      have hbij : Function.Bijective fun i : Fin N => shiftIdx i k :=
        Finite.injective_iff_bijective.mp (shiftIdx_injective k)
      rw [show (∑ i, gated (shiftIdx i k) 0) = ∑ i, gated i 0 from
        hbij.sum_comp fun i => gated i 0, hgated_sum, mul_one]
    rw [Finset.sum_congr rfl fun k _ => hre k, hs1]
  have hden : 0 < ∑ j, shifted j 0 ^ gamma :=
    Finset.sum_pos (fun j _ => Real.rpow_pos_of_pos (hshifted_pos j) _)
      (Finset.univ_nonempty_iff.mpr ⟨⟨0, hN⟩⟩)
  constructor
  · intro i
    exact div_pos (Real.rpow_pos_of_pos (hshifted_pos i) _) hden
  · rw [← Finset.sum_div]
    exact div_self (ne_of_gt hden)

end addressing

namespace NTM

variable {inS outS hS N M : ℕ}

theorem carryF_succ_w_rs (W : Params inS outS hS N M) (inputs : ℕ → Col inS)
    (t : ℕ) :
    (carryF W inputs (t + 1)).w_rs =
      addressing.create_weights (stepRecF W inputs t).k_rs
        (stepRecF W inputs t).beta_rs (stepRecF W inputs t).g_rs
        (stepRecF W inputs t).s_rs (stepRecF W inputs t).gamma_rs
        (carryF W inputs t).w_rs (carryF W inputs t).mems := rfl

theorem carryF_succ_w_ws (W : Params inS outS hS N M) (inputs : ℕ → Col inS)
    (t : ℕ) :
    (carryF W inputs (t + 1)).w_ws =
      addressing.create_weights (stepRecF W inputs t).k_ws
        (stepRecF W inputs t).beta_ws (stepRecF W inputs t).g_ws
        (stepRecF W inputs t).s_ws (stepRecF W inputs t).gamma_ws
        (carryF W inputs t).w_ws (carryF W inputs t).mems := rfl

theorem stepRecF_g_rs (W : Params inS outS hS N M) (inputs : ℕ → Col inS)
    (t : ℕ) :
    (stepRecF W inputs t).g_rs =
      sigmoid ((W.og_r * (stepRecF W inputs t).os + W.bg_r) 0 0) := rfl

theorem stepRecF_g_ws (W : Params inS outS hS N M) (inputs : ℕ → Col inS)
    (t : ℕ) :
    (stepRecF W inputs t).g_ws =
      sigmoid ((W.og_w * (stepRecF W inputs t).os + W.bg_w) 0 0) := rfl

theorem stepRecF_s_rs (W : Params inS outS hS N M) (inputs : ℕ → Col inS)
    (t : ℕ) :
    (stepRecF W inputs t).s_rs =
      softmax (W.os_r * (stepRecF W inputs t).os + W.bs_r) := rfl

theorem stepRecF_s_ws (W : Params inS outS hS N M) (inputs : ℕ → Col inS)
    (t : ℕ) :
    (stepRecF W inputs t).s_ws =
      softmax (W.os_w * (stepRecF W inputs t).os + W.bs_w) := rfl

/-- C5: at every timestep, from the initial conditions (python index -1,
obtained as softmax of the learned logits w_rsInit and w_wsInit) onwards,
the read-head and write-head weighting vectors over the N memory locations
are elementwise non-negative and sum to 1. -/
theorem C5_weightings_on_simplex (hN : 0 < N) (W : Params inS outS hS N M)
    (inputs : ℕ → Col inS) :
    (∀ t : ℕ,
      (∀ i, 0 ≤ (carryF W inputs t).w_rs i 0) ∧
      (∑ i, (carryF W inputs t).w_rs i 0 = 1) ∧
      (∀ i, 0 ≤ (carryF W inputs t).w_ws i 0) ∧
      (∑ i, (carryF W inputs t).w_ws i 0 = 1)) ∧
    (carryF W inputs 0).w_rs = softmax W.w_rsInit ∧
    (carryF W inputs 0).w_ws = softmax W.w_wsInit := by
  have hmin : 0 < min 3 N := lt_min (by norm_num) hN
  refine ⟨?_, rfl, rfl⟩
  intro t
  induction t with
  | zero =>
      exact ⟨fun i => (softmax_pos _ i).le, softmax_sum hN _,
        fun i => (softmax_pos _ i).le, softmax_sum hN _⟩
  | succ t ih =>
      obtain ⟨hr0, hr1, hw0, hw1⟩ := ih
      have hr := addressing.create_weights_simplex hN
        (stepRecF W inputs t).k_rs (stepRecF W inputs t).beta_rs
        (stepRecF W inputs t).g_rs (stepRecF W inputs t).s_rs
        (stepRecF W inputs t).gamma_rs (carryF W inputs t).w_rs
        (carryF W inputs t).mems
        (by rw [stepRecF_g_rs]; exact sigmoid_pos _)
        (by rw [stepRecF_g_rs]; exact (sigmoid_lt_one _).le)
        (by rw [stepRecF_s_rs]; exact fun k => (softmax_pos _ k).le)
        (by rw [stepRecF_s_rs]; exact softmax_sum hmin _) hr0 hr1
      have hw := addressing.create_weights_simplex hN
        (stepRecF W inputs t).k_ws (stepRecF W inputs t).beta_ws
        (stepRecF W inputs t).g_ws (stepRecF W inputs t).s_ws
        (stepRecF W inputs t).gamma_ws (carryF W inputs t).w_ws
        (carryF W inputs t).mems
        (by rw [stepRecF_g_ws]; exact sigmoid_pos _)
        (by rw [stepRecF_g_ws]; exact (sigmoid_lt_one _).le)
        (by rw [stepRecF_s_ws]; exact fun k => (softmax_pos _ k).le)
        (by rw [stepRecF_s_ws]; exact softmax_sum hmin _) hw0 hw1
      rw [carryF_succ_w_rs, carryF_succ_w_ws]
      exact ⟨fun i => (hr.1 i).le, hr.2, fun i => (hw.1 i).le, hw.2⟩

/-- Closed instance of the C5 hypothesis at a concrete configuration. -/
theorem C5_weightings_on_simplex_w :
    0 < 1 ∧
    (∀ i, 0 ≤ (carryF (zeroParams 1 1 1 1 1) (fun _ => 0) 0).w_rs i 0) :=
  ⟨by decide,
   ((C5_weightings_on_simplex (by decide) (zeroParams 1 1 1 1 1)
      (fun _ => 0)).1 0).1⟩

end NTM

theorem sigmoid_zero : sigmoid 0 = 1 / 2 := by
  unfold sigmoid
  rw [neg_zero, Real.exp_zero]
  norm_num

theorem tanh_hasDerivAt (x : ℝ) :
    HasDerivAt Real.tanh (1 / Real.cosh x ^ 2) x := by
  have h : Real.tanh = fun y => Real.sinh y / Real.cosh y :=
    funext fun y => Real.tanh_eq_sinh_div_cosh y
  rw [h]
  have hd := (Real.hasDerivAt_sinh x).div (Real.hasDerivAt_cosh x)
    (ne_of_gt (Real.cosh_pos x))
  convert hd using 1
  have h1 : Real.cosh x * Real.cosh x - Real.sinh x * Real.sinh x = 1 := by
    have h2 := Real.cosh_sq_sub_sinh_sq x
    nlinarith [h2]
  rw [h1]

theorem tanh_hasDerivAt_zero : HasDerivAt Real.tanh 1 0 := by
  have h := tanh_hasDerivAt 0
  norm_num [Real.cosh_zero] at h
  exact h

theorem sigmoid_hasDerivAt (x : ℝ) :
    HasDerivAt sigmoid (Real.exp (-x) / (1 + Real.exp (-x)) ^ 2) x := by
  have hneg : HasDerivAt (fun y : ℝ => -y) (-1 : ℝ) x := (hasDerivAt_id x).neg
  have hexp := (Real.hasDerivAt_exp (-x)).comp x hneg
  have hden : HasDerivAt (fun y : ℝ => 1 + Real.exp (-y)) (-Real.exp (-x)) x := by
    have h2 := hexp.const_add (1 : ℝ)
    simpa [Function.comp] using h2
  have hpos : (0 : ℝ) < 1 + Real.exp (-x) := by positivity
  have hd := (hasDerivAt_const x (1 : ℝ)).div hden (ne_of_gt hpos)
  have hs : sigmoid = fun y : ℝ => 1 / (1 + Real.exp (-y)) := rfl
  rw [hs]
  convert hd using 1
  field_simp

theorem sigmoid_hasDerivAt_zero : HasDerivAt sigmoid (1 / 4) 0 := by
  have h := sigmoid_hasDerivAt 0
  norm_num [Real.exp_zero] at h
  exact h

namespace NTM

variable {inS outS hS N M : ℕ}

theorem carryF_zero (W : Params inS outS hS N M) (inputs : ℕ → Col inS) :
    carryF W inputs 0 = carry0 W := rfl

theorem carryF_succ_rs (W : Params inS outS hS N M) (inputs : ℕ → Col inS)
    (t : ℕ) :
    (carryF W inputs (t + 1)).rs =
      memory.read (carryF W inputs t).mems (stepRecF W inputs t).w_rs := rfl

theorem carryF_succ_mems (W : Params inS outS hS N M) (inputs : ℕ → Col inS)
    (t : ℕ) :
    (carryF W inputs (t + 1)).mems =
      memory.write (carryF W inputs t).mems (stepRecF W inputs t).w_ws
        (stepRecF W inputs t).erases (stepRecF W inputs t).adds := rfl

theorem stepRecF_zhs (W : Params inS outS hS N M) (inputs : ℕ → Col inS)
    (t : ℕ) :
    (stepRecF W inputs t).zhs =
      W.xh * inputs t + W.rh * (carryF W inputs t).rs + W.bh := rfl

theorem stepRecF_hs (W : Params inS outS hS N M) (inputs : ℕ → Col inS)
    (t : ℕ) :
    (stepRecF W inputs t).hs = (stepRecF W inputs t).zhs.map Real.tanh := rfl

theorem stepRecF_zos (W : Params inS outS hS N M) (inputs : ℕ → Col inS)
    (t : ℕ) :
    (stepRecF W inputs t).zos =
      W.ho * (stepRecF W inputs t).hs + W.bo := rfl

theorem stepRecF_os (W : Params inS outS hS N M) (inputs : ℕ → Col inS)
    (t : ℕ) :
    (stepRecF W inputs t).os = (stepRecF W inputs t).zos.map Real.tanh := rfl

theorem stepRecF_ys (W : Params inS outS hS N M) (inputs : ℕ → Col inS)
    (t : ℕ) :
    (stepRecF W inputs t).ys =
      W.oy * (stepRecF W inputs t).os + W.by' := rfl

theorem stepRecF_ps (W : Params inS outS hS N M) (inputs : ℕ → Col inS)
    (t : ℕ) :
    (stepRecF W inputs t).ps = (stepRecF W inputs t).ys.map sigmoid := rfl

theorem stepRecF_k_rs (W : Params inS outS hS N M) (inputs : ℕ → Col inS)
    (t : ℕ) :
    (stepRecF W inputs t).k_rs =
      (W.ok_r * (stepRecF W inputs t).os + W.bk_r).map Real.tanh := rfl

theorem stepRecF_beta_rs (W : Params inS outS hS N M) (inputs : ℕ → Col inS)
    (t : ℕ) :
    (stepRecF W inputs t).beta_rs =
      softplus ((W.obeta_r * (stepRecF W inputs t).os + W.bbeta_r) 0 0) := rfl

theorem stepRecF_gamma_rs (W : Params inS outS hS N M) (inputs : ℕ → Col inS)
    (t : ℕ) :
    (stepRecF W inputs t).gamma_rs =
      1 + sigmoid ((W.ogamma_r * (stepRecF W inputs t).os + W.bgamma_r) 0 0) := rfl

end NTM

namespace Conc

open NTM

/-- Concrete configuration separating the manual gradients from the oracle
gradients: sizes in = out = hidden = M = 1, N = 2 (shift width 2), sequence
length T = 2; every parameter tensor is zero except ho, oy, rh (the 1x1
matrix of 1), the read-weighting initial logits (1, 0), the initial memory
rows 1 and -1, and the first coordinate of the shift bias bs_r, which is
the variable b. -/
noncomputable def Wb (b : ℝ) : Params 1 1 1 2 1 :=
  { xh := 0, ho := !![1], oy := !![1], bh := 0, by' := 0, bo := 0, rh := !![1],
    ok_r := 0, ok_w := 0, obeta_r := 0, obeta_w := 0, og_r := 0, og_w := 0,
    os_r := 0, os_w := 0, ogamma_r := 0, ogamma_w := 0, oadds := 0,
    oerases := 0, bk_r := 0, bk_w := 0, bbeta_r := 0, bbeta_w := 0,
    bg_r := 0, bg_w := 0, bs_r := !![b; 0], bs_w := 0, bgamma_r := 0,
    bgamma_w := 0, badds := 0, berases := 0, rsInit := 0, w_wsInit := 0,
    w_rsInit := !![1; 0], memsInit := !![1; -1] }

/-- Concrete input sequence: the zero vector at every step. -/
def inputsC : ℕ → Col 1 := fun _ => 0

/-- Concrete target sequence: the zero bit at every step. -/
def targetsC : ℕ → Col 1 := fun _ => 0

/-- Read-head shift distribution entries at the concrete configuration:
softmax of the logits (b, 0). -/
noncomputable def s0C (b : ℝ) : ℝ := Real.exp b / (Real.exp b + 1)

/-- Second entry of the concrete shift distribution. -/
noncomputable def s1C (b : ℝ) : ℝ := 1 / (Real.exp b + 1)

/-- Gated read weighting at location 0 (gate 1/2 between the uniform content
weighting and softmax (1, 0)). -/
noncomputable def uC : ℝ := 1 / 4 + Real.exp 1 / (Real.exp 1 + 1) / 2

/-- Gated read weighting at location 1. -/
noncomputable def vC : ℝ := 1 / 4 + 1 / (Real.exp 1 + 1) / 2

/-- Shifted read weighting at location 0. -/
noncomputable def sh0C (b : ℝ) : ℝ := s0C b * vC + s1C b * uC

/-- Shifted read weighting at location 1. -/
noncomputable def sh1C (b : ℝ) : ℝ := s0C b * uC + s1C b * vC

/-- Sharpened unnormalised weight at location 0 (exponent gamma = 3/2). -/
noncomputable def AC (b : ℝ) : ℝ := sh0C b ^ (3 / 2 : ℝ)

/-- Sharpened unnormalised weight at location 1. -/
noncomputable def BC (b : ℝ) : ℝ := sh1C b ^ (3 / 2 : ℝ)

/-- Read vector at python step 0 of the concrete forward pass. -/
noncomputable def rCl (b : ℝ) : ℝ := (AC b - BC b) / (AC b + BC b)

/-- Scalar loss of the concrete forward pass as a function of the variable
coordinate b of bs_r. -/
noncomputable def lossConc (b : ℝ) : ℝ := fpropLoss (Wb b) inputsC targetsC 2

theorem sum_fin_min32 (f : Fin (min 3 2) → ℝ) :
    ∑ k, f k = f ⟨0, by norm_num⟩ + f ⟨1, by norm_num⟩ := by
  show (∑ k : Fin 2, f k) = f ⟨0, by norm_num⟩ + f ⟨1, by norm_num⟩
  exact Fin.sum_univ_two f

end Conc

namespace NTM

variable {inS outS hS N M : ℕ}

theorem stepRecF_w_rs (W : Params inS outS hS N M) (inputs : ℕ → Col inS)
    (t : ℕ) :
    (stepRecF W inputs t).w_rs =
      addressing.create_weights (stepRecF W inputs t).k_rs
        (stepRecF W inputs t).beta_rs (stepRecF W inputs t).g_rs
        (stepRecF W inputs t).s_rs (stepRecF W inputs t).gamma_rs
        (carryF W inputs t).w_rs (carryF W inputs t).mems := rfl

theorem stepRecF_s_rs_apply (W : Params inS outS hS N M)
    (inputs : ℕ → Col inS) (t : ℕ) (k : Fin (min 3 N)) :
    (stepRecF W inputs t).s_rs k 0 =
      softmax (W.os_r * (stepRecF W inputs t).os + W.bs_r) k 0 := rfl

end NTM

namespace Conc

open NTM

theorem cosSim_key_zero (u : Fin 1 → ℝ) :
    addressing.cosine_sim u (0 : Col 1) = 0 := by
  unfold addressing.cosine_sim
  rw [if_pos]
  right
  simp

theorem sm_const0 (i : Fin 2) :
    softmax (fun _ _ => (0 : ℝ)) i 0 = 1 / 2 := by
  unfold softmax
  rw [Fin.sum_univ_two, Real.exp_zero]
  norm_num

theorem shiftIdx00 (h : 0 < min 3 2) :
    addressing.shiftIdx (0 : Fin 2) ⟨0, h⟩ = 1 := by
  apply Fin.ext
  simp [addressing.shiftIdx]

theorem shiftIdx01 (h : 1 < min 3 2) :
    addressing.shiftIdx (0 : Fin 2) ⟨1, h⟩ = 0 := by
  apply Fin.ext
  simp [addressing.shiftIdx]

theorem shiftIdx10 (h : 0 < min 3 2) :
    addressing.shiftIdx (1 : Fin 2) ⟨0, h⟩ = 0 := by
  apply Fin.ext
  simp [addressing.shiftIdx]

theorem shiftIdx11 (h : 1 < min 3 2) :
    addressing.shiftIdx (1 : Fin 2) ⟨1, h⟩ = 1 := by
  apply Fin.ext
  simp [addressing.shiftIdx]

theorem cw_conc_entries {b : ℝ} (beta g gamma : ℝ) (s : Col (min 3 2))
    (prev : Col 2) (mem : Matrix (Fin 2) (Fin 1) ℝ)
    (hg : g = sigmoid 0) (hgamma : gamma = 1 + sigmoid 0)
    (hs0 : ∀ h, s ⟨0, h⟩ 0 = s0C b) (hs1 : ∀ h, s ⟨1, h⟩ 0 = s1C b)
    (hp0 : prev 0 0 = Real.exp 1 / (Real.exp 1 + 1))
    (hp1 : prev 1 0 = 1 / (Real.exp 1 + 1)) :
    addressing.create_weights (0 : Col 1) beta g s gamma prev mem 0 0 =
      AC b / (AC b + BC b) ∧
    addressing.create_weights (0 : Col 1) beta g s gamma prev mem 1 0 =
      BC b / (AC b + BC b) := by
  subst hg hgamma
  unfold addressing.create_weights
  simp only [cosSim_key_zero, mul_zero, sm_const0, sigmoid_zero]
  constructor
  · rw [Fin.sum_univ_two]
    rw [sum_fin_min32, sum_fin_min32]
    rw [shiftIdx00, shiftIdx01, shiftIdx10, shiftIdx11]
    rw [hs0, hs1, hp0, hp1]
    have hu : (1 : ℝ) / 2 * (1 / 2) + (1 - 1 / 2) * (Real.exp 1 / (Real.exp 1 + 1)) = uC := by
      unfold uC; ring
    have hv : (1 : ℝ) / 2 * (1 / 2) + (1 - 1 / 2) * (1 / (Real.exp 1 + 1)) = vC := by
      unfold vC; ring
    rw [hu, hv]
    rw [show s0C b * vC + s1C b * uC = sh0C b from rfl,
        show s0C b * uC + s1C b * vC = sh1C b from rfl]
    rw [show (1 : ℝ) + 1 / 2 = 3 / 2 from by norm_num]
    rfl
  · rw [Fin.sum_univ_two]
    rw [sum_fin_min32, sum_fin_min32]
    rw [shiftIdx00, shiftIdx01, shiftIdx10, shiftIdx11]
    rw [hs0, hs1, hp0, hp1]
    have hu : (1 : ℝ) / 2 * (1 / 2) + (1 - 1 / 2) * (Real.exp 1 / (Real.exp 1 + 1)) = uC := by
      unfold uC; ring
    have hv : (1 : ℝ) / 2 * (1 / 2) + (1 - 1 / 2) * (1 / (Real.exp 1 + 1)) = vC := by
      unfold vC; ring
    rw [hu, hv]
    rw [show s0C b * vC + s1C b * uC = sh0C b from rfl,
        show s0C b * uC + s1C b * vC = sh1C b from rfl]
    rw [show (1 : ℝ) + 1 / 2 = 3 / 2 from by norm_num]
    rfl

theorem os0_eval (b : ℝ) : (stepRecF (Wb b) inputsC 0).os = 0 := by
  rw [stepRecF_os, stepRecF_zos, stepRecF_hs, stepRecF_zhs, carryF_zero]
  show (((Wb b).ho * (((Wb b).xh * inputsC 0 + (Wb b).rh * (Wb b).rsInit +
    (Wb b).bh).map Real.tanh) + (Wb b).bo).map Real.tanh) = 0
  simp [Wb, inputsC, Matrix.map_zero _ Real.tanh_zero]

theorem g_rs0_eval (b : ℝ) : (stepRecF (Wb b) inputsC 0).g_rs = sigmoid 0 := by
  rw [stepRecF_g_rs]
  have h : (Wb b).og_r * (stepRecF (Wb b) inputsC 0).os + (Wb b).bg_r = 0 := by
    simp [Wb]
  rw [h]
  simp

theorem gamma_rs0_eval (b : ℝ) :
    (stepRecF (Wb b) inputsC 0).gamma_rs = 1 + sigmoid 0 := by
  rw [stepRecF_gamma_rs]
  have h : (Wb b).ogamma_r * (stepRecF (Wb b) inputsC 0).os + (Wb b).bgamma_r = 0 := by
    simp [Wb]
  rw [h]
  simp

theorem k_rs0_eval (b : ℝ) : (stepRecF (Wb b) inputsC 0).k_rs = (0 : Col 1) := by
  rw [stepRecF_k_rs]
  have h : (Wb b).ok_r * (stepRecF (Wb b) inputsC 0).os + (Wb b).bk_r = 0 := by
    simp [Wb]
  rw [h]
  exact Matrix.map_zero _ Real.tanh_zero

theorem s_rs0_eval0 (b : ℝ) (h : 0 < min 3 2) :
    (stepRecF (Wb b) inputsC 0).s_rs ⟨0, h⟩ 0 = s0C b := by
  rw [stepRecF_s_rs_apply]
  have hm : (Wb b).os_r * (stepRecF (Wb b) inputsC 0).os + (Wb b).bs_r =
      (!![b; 0] : Col (min 3 2)) := by
    simp [Wb]
  rw [hm]
  unfold softmax s0C
  rw [sum_fin_min32 (fun j => Real.exp ((!![b; 0] : Col (min 3 2)) j 0))]
  show Real.exp b / (Real.exp b + Real.exp 0) = _
  rw [Real.exp_zero]

theorem s_rs0_eval1 (b : ℝ) (h : 1 < min 3 2) :
    (stepRecF (Wb b) inputsC 0).s_rs ⟨1, h⟩ 0 = s1C b := by
  rw [stepRecF_s_rs_apply]
  have hm : (Wb b).os_r * (stepRecF (Wb b) inputsC 0).os + (Wb b).bs_r =
      (!![b; 0] : Col (min 3 2)) := by
    simp [Wb]
  rw [hm]
  unfold softmax s1C
  rw [sum_fin_min32 (fun j => Real.exp ((!![b; 0] : Col (min 3 2)) j 0))]
  show Real.exp 0 / (Real.exp b + Real.exp 0) = _
  rw [Real.exp_zero]

theorem w_rsInit_eval0 (b : ℝ) :
    (carryF (Wb b) inputsC 0).w_rs 0 0 = Real.exp 1 / (Real.exp 1 + 1) := by
  rw [carryF_zero]
  show softmax (Wb b).w_rsInit 0 0 = _
  unfold softmax
  rw [Fin.sum_univ_two]
  show Real.exp ((Wb b).w_rsInit 0 0) /
    (Real.exp ((Wb b).w_rsInit 0 0) + Real.exp ((Wb b).w_rsInit 1 0)) = _
  simp [Wb]

theorem w_rsInit_eval1 (b : ℝ) :
    (carryF (Wb b) inputsC 0).w_rs 1 0 = 1 / (Real.exp 1 + 1) := by
  rw [carryF_zero]
  show softmax (Wb b).w_rsInit 1 0 = _
  unfold softmax
  rw [Fin.sum_univ_two]
  show Real.exp ((Wb b).w_rsInit 1 0) /
    (Real.exp ((Wb b).w_rsInit 0 0) + Real.exp ((Wb b).w_rsInit 1 0)) = _
  simp [Wb]

end Conc

namespace Conc

open NTM

theorem sh0C_pos (b : ℝ) : 0 < sh0C b := by
  unfold sh0C s0C s1C uC vC
  positivity

theorem sh1C_pos (b : ℝ) : 0 < sh1C b := by
  unfold sh1C s0C s1C uC vC
  positivity

theorem ACBC_pos (b : ℝ) : 0 < AC b + BC b := by
  unfold AC BC
  have h0 := Real.rpow_pos_of_pos (sh0C_pos b) (3 / 2 : ℝ)
  have h1 := Real.rpow_pos_of_pos (sh1C_pos b) (3 / 2 : ℝ)
  linarith

theorem rs1_eval (b : ℝ) : (carryF (Wb b) inputsC 1).rs 0 0 = rCl b := by
  rw [carryF_succ_rs]
  show ∑ n : Fin 2, (stepRecF (Wb b) inputsC 0).w_rs n 0 *
    (carryF (Wb b) inputsC 0).mems n 0 = rCl b
  rw [Fin.sum_univ_two]
  have hmem0 : (carryF (Wb b) inputsC 0).mems 0 0 = 1 := by
    rw [carryF_zero]
    show (Wb b).memsInit 0 0 = 1
    simp [Wb]
  have hmem1 : (carryF (Wb b) inputsC 0).mems 1 0 = -1 := by
    rw [carryF_zero]
    show (Wb b).memsInit 1 0 = -1
    simp [Wb]
  have hcw := cw_conc_entries (stepRecF (Wb b) inputsC 0).beta_rs
    (stepRecF (Wb b) inputsC 0).g_rs (stepRecF (Wb b) inputsC 0).gamma_rs
    (stepRecF (Wb b) inputsC 0).s_rs (carryF (Wb b) inputsC 0).w_rs
    (carryF (Wb b) inputsC 0).mems (g_rs0_eval b) (gamma_rs0_eval b)
    (s_rs0_eval0 b) (s_rs0_eval1 b) (w_rsInit_eval0 b) (w_rsInit_eval1 b)
  have hw0 : (stepRecF (Wb b) inputsC 0).w_rs 0 0 = AC b / (AC b + BC b) := by
    rw [stepRecF_w_rs, k_rs0_eval]
    exact hcw.1
  have hw1 : (stepRecF (Wb b) inputsC 0).w_rs 1 0 = BC b / (AC b + BC b) := by
    rw [stepRecF_w_rs, k_rs0_eval]
    exact hcw.2
  rw [hw0, hw1, hmem0, hmem1]
  unfold rCl
  have hne : AC b + BC b ≠ 0 := ne_of_gt (ACBC_pos b)
  field_simp
  ring

end Conc

namespace Conc

open NTM

theorem ys0_eval (b : ℝ) : (stepRecF (Wb b) inputsC 0).ys 0 0 = 0 := by
  rw [stepRecF_ys, os0_eval]
  simp [Wb]

theorem ys1_eval (b : ℝ) :
    (stepRecF (Wb b) inputsC 1).ys 0 0 = Real.tanh (Real.tanh (rCl b)) := by
  simp only [stepRecF_ys, stepRecF_os, stepRecF_zos, stepRecF_hs,
    stepRecF_zhs, Matrix.add_apply, Matrix.mul_apply, Fin.sum_univ_one,
    Matrix.map_apply]
  rw [rs1_eval]
  simp [Wb, inputsC]

theorem lossConc_eval : lossConc = fun b =>
    -Real.log (1 - sigmoid 0 + NTM.epsilon) +
    -Real.log (1 - sigmoid (Real.tanh (Real.tanh (rCl b))) + NTM.epsilon) := by
  funext b
  unfold lossConc fpropLoss
  rw [Finset.sum_range_succ, Finset.sum_range_succ, Finset.sum_range_zero,
    zero_add, Fin.sum_univ_one, Fin.sum_univ_one]
  unfold lossTerm
  simp only [stepRecF_ps, Matrix.map_apply, targetsC, Matrix.zero_apply]
  rw [ys0_eval, ys1_eval]
  ring

end Conc

namespace Conc

open NTM

theorem exp1_add_one_ne : Real.exp 1 + 1 ≠ 0 := by positivity

theorem uC_add_vC : uC + vC = 1 := by
  unfold uC vC
  field_simp
  ring

theorem s0C_zero : s0C 0 = 1 / 2 := by
  unfold s0C
  rw [Real.exp_zero]
  norm_num

theorem s1C_zero : s1C 0 = 1 / 2 := by
  unfold s1C
  rw [Real.exp_zero]
  norm_num

theorem sh0C_zero : sh0C 0 = 1 / 2 := by
  unfold sh0C
  rw [s0C_zero, s1C_zero]
  have h := uC_add_vC
  linarith

theorem sh1C_zero : sh1C 0 = 1 / 2 := by
  unfold sh1C
  rw [s0C_zero, s1C_zero]
  have h := uC_add_vC
  linarith

theorem s0C_hasDeriv : HasDerivAt s0C (1 / 4) 0 := by
  have h := (Real.hasDerivAt_exp 0).div ((Real.hasDerivAt_exp 0).add_const 1)
    (by positivity)
  have hs : s0C = fun b => Real.exp b / (Real.exp b + 1) := rfl
  rw [hs]
  convert h using 1
  rw [Real.exp_zero]
  norm_num

theorem s1C_hasDeriv : HasDerivAt s1C (-(1 / 4)) 0 := by
  have h := (hasDerivAt_const 0 (1 : ℝ)).div
    ((Real.hasDerivAt_exp 0).add_const 1) (by positivity)
  have hs : s1C = fun b => 1 / (Real.exp b + 1) := rfl
  rw [hs]
  convert h using 1
  rw [Real.exp_zero]
  norm_num

theorem sh0C_hasDeriv : HasDerivAt sh0C (1 / 4 * vC + -(1 / 4) * uC) 0 := by
  have h := (s0C_hasDeriv.mul_const vC).add (s1C_hasDeriv.mul_const uC)
  exact h

theorem sh1C_hasDeriv : HasDerivAt sh1C (1 / 4 * uC + -(1 / 4) * vC) 0 := by
  exact (s0C_hasDeriv.mul_const uC).add (s1C_hasDeriv.mul_const vC)

theorem AC_hasDeriv :
    HasDerivAt AC ((3 / 2 * (1 / 2 : ℝ) ^ (3 / 2 - 1 : ℝ)) *
      (1 / 4 * vC + -(1 / 4) * uC)) 0 := by
  have hpow : HasDerivAt (fun x : ℝ => x ^ (3 / 2 : ℝ))
      (3 / 2 * (1 / 2 : ℝ) ^ (3 / 2 - 1 : ℝ)) (sh0C 0) := by
    rw [sh0C_zero]
    exact Real.hasDerivAt_rpow_const (Or.inr (by norm_num))
  exact hpow.comp 0 sh0C_hasDeriv

theorem BC_hasDeriv :
    HasDerivAt BC ((3 / 2 * (1 / 2 : ℝ) ^ (3 / 2 - 1 : ℝ)) *
      (1 / 4 * uC + -(1 / 4) * vC)) 0 := by
  have hpow : HasDerivAt (fun x : ℝ => x ^ (3 / 2 : ℝ))
      (3 / 2 * (1 / 2 : ℝ) ^ (3 / 2 - 1 : ℝ)) (sh1C 0) := by
    rw [sh1C_zero]
    exact Real.hasDerivAt_rpow_const (Or.inr (by norm_num))
  exact hpow.comp 0 sh1C_hasDeriv

theorem AC_zero : AC 0 = (1 / 2 : ℝ) ^ (3 / 2 : ℝ) := by
  unfold AC
  rw [sh0C_zero]

theorem BC_zero : BC 0 = (1 / 2 : ℝ) ^ (3 / 2 : ℝ) := by
  unfold BC
  rw [sh1C_zero]

theorem rCl_hasDeriv : HasDerivAt rCl (3 / 4 * (vC - uC)) 0 := by
  have hne : AC 0 + BC 0 ≠ 0 := ne_of_gt (ACBC_pos 0)
  have h := (AC_hasDeriv.sub BC_hasDeriv).div (AC_hasDeriv.add BC_hasDeriv) hne
  have hr : rCl = fun b => (AC b - BC b) / (AC b + BC b) := rfl
  rw [hr]
  convert h using 1
  rw [AC_zero, BC_zero]
  rw [show (3 / 2 - 1 : ℝ) = 1 / 2 by norm_num]
  have hq : ((1 : ℝ) / 2) ^ (3 / 2 : ℝ) = (1 / 2 : ℝ) ^ (1 / 2 : ℝ) * (1 / 2) := by
    rw [show (3 / 2 : ℝ) = 1 / 2 + 1 by norm_num, Real.rpow_add (by norm_num),
      Real.rpow_one]
  have hq12 : (0 : ℝ) < (1 / 2 : ℝ) ^ (1 / 2 : ℝ) :=
    Real.rpow_pos_of_pos (by norm_num) _
  rw [hq]
  have hne12 : ((1 : ℝ) / 2 : ℝ) ^ (1 / 2 : ℝ) ≠ 0 := ne_of_gt hq12
  field_simp
  ring

theorem rCl_zero : rCl 0 = 0 := by
  unfold rCl
  rw [AC_zero, BC_zero, sub_self, zero_div]

end Conc

namespace Conc

open NTM

/-- Derivative at b = 0 of the concrete loss with respect to the first
coordinate of bs_r. -/
noncomputable def DC : ℝ := 1 / 4 * (3 / 4 * (vC - uC)) / (1 / 2 + NTM.epsilon)

theorem lossConc_hasDeriv : HasDerivAt lossConc DC 0 := by
  rw [lossConc_eval]
  have h1 : HasDerivAt (fun b => Real.tanh (rCl b))
      (1 * (3 / 4 * (vC - uC))) 0 := by
    have ht : HasDerivAt Real.tanh 1 (rCl 0) := by
      rw [rCl_zero]; exact tanh_hasDerivAt_zero
    exact ht.comp 0 rCl_hasDeriv
  have h2 : HasDerivAt (fun b => Real.tanh (Real.tanh (rCl b)))
      (1 * (1 * (3 / 4 * (vC - uC)))) 0 := by
    have ht : HasDerivAt Real.tanh 1 (Real.tanh (rCl 0)) := by
      rw [rCl_zero, Real.tanh_zero]; exact tanh_hasDerivAt_zero
    exact ht.comp 0 h1
  have h3 : HasDerivAt (fun b => sigmoid (Real.tanh (Real.tanh (rCl b))))
      (1 / 4 * (1 * (1 * (3 / 4 * (vC - uC))))) 0 := by
    have hs : HasDerivAt sigmoid (1 / 4) (Real.tanh (Real.tanh (rCl 0))) := by
      rw [rCl_zero, Real.tanh_zero, Real.tanh_zero]
      exact sigmoid_hasDerivAt_zero
    exact hs.comp 0 h2
  have h4 : HasDerivAt
      (fun b => 1 - sigmoid (Real.tanh (Real.tanh (rCl b))) + NTM.epsilon)
      (-(1 / 4 * (1 * (1 * (3 / 4 * (vC - uC)))))) 0 :=
    (h3.const_sub 1).add_const _
  have hval : 1 - sigmoid (Real.tanh (Real.tanh (rCl 0))) + NTM.epsilon =
      1 / 2 + NTM.epsilon := by
    rw [rCl_zero, Real.tanh_zero, Real.tanh_zero, sigmoid_zero]
    ring
  have hne : 1 - sigmoid (Real.tanh (Real.tanh (rCl 0))) + NTM.epsilon ≠ 0 := by
    rw [hval]
    have h := epsilon_pos
    linarith
  have h5 := h4.log hne
  have h6 := h5.neg.const_add (-Real.log (1 - sigmoid 0 + NTM.epsilon))
  convert h6 using 1
  rw [hval]
  unfold DC
  ring

theorem one_lt_exp_one : (1 : ℝ) < Real.exp 1 := by
  have h := Real.add_one_lt_exp (one_ne_zero (α := ℝ))
  linarith

theorem vC_sub_uC_neg : vC - uC < 0 := by
  have hkey : vC - uC = (1 - Real.exp 1) / (2 * (Real.exp 1 + 1)) := by
    unfold uC vC
    field_simp
    ring
  rw [hkey]
  apply div_neg_of_neg_of_pos
  · have := one_lt_exp_one
    linarith
  · positivity

theorem DC_neg : DC < 0 := by
  unfold DC
  apply div_neg_of_neg_of_pos
  · have := vC_sub_uC_neg
    nlinarith
  · have := epsilon_pos
    linarith

theorem DC_ne_zero : DC ≠ 0 := ne_of_lt DC_neg

end Conc

namespace NTM

variable {inS outS hS N M : ℕ}

theorem bstep_deltas_bs_r (W : Params inS outS hS N M) (inputs : ℕ → Col inS)
    (targets : ℕ → Col outS) (T t : ℕ) (s : BState inS outS hS N M) :
    (bstep W inputs targets T t s).deltas.bs_r = s.deltas.bs_r := by
  by_cases h : t + 1 < T
  · simp only [bstep, if_pos h, bstepTail]
  · simp only [bstep, if_neg h, bstepTail]

theorem manualGrads_bs_r_zero (W : Params inS outS hS N M)
    (inputs : ℕ → Col inS) (targets : ℕ → Col outS) (T : ℕ) :
    (manualGradsF W inputs targets T).bs_r = 0 := by
  unfold manualGradsF
  have h : ∀ j, (bstateF W inputs targets T
      (zeroBState inS outS hS N M) j).deltas.bs_r = 0 := by
    intro j
    induction j with
    | zero => rfl
    | succ j ih =>
        simp only [bstateF]
        rw [bstep_deltas_bs_r]
        exact ih
  exact h T

end NTM

namespace Conc

open NTM

/-- C1 evidence: at the concrete configuration (variable coordinate b of
bs_r, T = 2), the manual backward pass leaves the bs_r gradient exactly
zero (it never accumulates into any addressing-head parameter), while the
scalar loss returned by fprop, as a function of that coordinate, has the
nonzero derivative DC there; the automatic-differentiation oracle therefore
returns a gradient that differs from the manual one in relative error 1. -/
theorem C1_manual_grads_incomplete :
    (manualGradsF (Wb 0) inputsC targetsC 2).bs_r = 0 ∧
    HasDerivAt lossConc DC 0 ∧ DC ≠ 0 :=
  ⟨manualGrads_bs_r_zero _ _ _ _, lossConc_hasDeriv, DC_ne_zero⟩

/-- Modelled from the spec: the gradient collection computed by the
automatic-differentiation oracle (grad(fprop), a black box not under src/)
at the concrete configuration Wb 0; the distinguishing bs_r entry is
certified against the derivative of the loss by the accompanying theorems,
the remaining entries are not used by any statement. -/
noncomputable def oracleC : Params 1 1 1 2 1 → Params 1 1 1 2 1 :=
  fun _ => { zeroParams 1 1 1 2 1 with bs_r := !![DC; -DC] }

/-- Trivial tolerance comparison (unused on the manual_grad = false path). -/
def cmpTrue : CmpFn := fun _ _ _ _ => true

/-- C2 counterexample: with manual_grad = false, bprop returns the oracle
(automatic-differentiation) gradient collection, and at the concrete
configuration that collection differs from the manual one on the certified
bs_r coordinate, so the returned gradients are not the manually-computed
ones. -/
theorem C2_false_branch_returns_oracle :
    bpropE oracleC cmpTrue (Wb 0) inputsC targetsC 2 false =
      Except.ok (oracleC (Wb 0)) ∧
    (oracleC (Wb 0)).bs_r ⟨0, by norm_num⟩ 0 ≠
      (manualGradsF (Wb 0) inputsC targetsC 2).bs_r ⟨0, by norm_num⟩ 0 ∧
    HasDerivAt lossConc ((oracleC (Wb 0)).bs_r ⟨0, by norm_num⟩ 0) 0 := by
  have h1 : (oracleC (Wb 0)).bs_r ⟨0, by norm_num⟩ 0 = DC := rfl
  refine ⟨rfl, ?_, ?_⟩
  · rw [h1, manualGrads_bs_r_zero]
    simp only [Matrix.zero_apply]
    exact DC_ne_zero
  · rw [h1]
    exact lossConc_hasDeriv

end Conc

namespace NTM

variable {inS outS hS N M : ℕ}

/-- C2 amended: when lossFun is called with manual_grad = false, gradient
verification is skipped and the automatically-differentiated gradient
collection (the oracle output grad(fprop)(params)) is the gradients
component of the returned tuple (loss, gradients, predictions,
read_weightings, write_weightings, adds, erases). -/
theorem C2_false_skips_verification_returns_auto
    (oracle : Params inS outS hS N M → Params inS outS hS N M) (cmp : CmpFn)
    (W : Params inS outS hS N M) (inputs : ℕ → Col inS)
    (targets : ℕ → Col outS) (T : ℕ) :
    lossFunE oracle cmp W inputs targets T false =
      Except.ok
        ⟨lossVecF W inputs targets T, oracle W,
         fun t => (stepRecF W inputs t).ps,
         fun t => (carryF W inputs t).w_rs,
         fun t => (carryF W inputs t).w_ws,
         fun t => (stepRecF W inputs t).adds,
         fun t => (stepRecF W inputs t).erases⟩ := rfl

end NTM
